import Mathlib

/-!
Shallow embedding of the `boltzmann-machines` repository
(`hdp_dbm/rbm.py`, `hdp_dbm/utils/utils.py`, `examples/dbm_cifar.py`)
together with theorems settling the frozen claims about it.

Real-valued tensor entries are modelled as rationals (`ℚ`); the
transcendental activations `tf.nn.sigmoid` and `tf.nn.softplus` are
abstracted as function parameters, since every claim under scrutiny is
about the data flow around them, not about their numeric values.
-/

/-! ## Definitions -/

namespace utils

/-- Embedding of `utils.batch_iter` (`utils/utils.py`):
`for start_index in range(0, X.shape[0], batch_size): yield X[start_index:start_index+batch_size]`.
`range(0, N, b)` for `b ≥ 1` is `[0, b, 2*b, ...]` with `⌈N/b⌉ = (N + b - 1)/b`
elements, and the numpy slice `X[s : s+b]` is `(X.drop s).take b`. -/
def batch_iter (X : List α) (batch_size : Nat) : List (List α) :=
  (List.range ((X.length + batch_size - 1) / batch_size)).map
    (fun k => (X.drop (k * batch_size)).take batch_size)

/-- The sub-array sizes `np.array_split` uses for an array of length `n`
split into `f` parts: `n % f` parts of size `n / f + 1` followed by the rest
of size `n / f`. -/
def splitSizes (n f : Nat) : List Nat :=
  (List.range f).map (fun k => if k < n % f then n / f + 1 else n / f)

/-- Cut successive prefixes of the given sizes off `l`. -/
def splitBySizes : List α → List Nat → List (List α)
  | _, [] => []
  | l, s :: rest => l.take s :: splitBySizes (l.drop s) rest

/-- `np.array_split(l, f)`. -/
def array_split (l : List α) (f : Nat) : List (List α) :=
  splitBySizes l (splitSizes l.length f)

/-- Embedding of `utils.make_k_folds` (`utils/utils.py`), with integer
labels `y`. The `RNG` class it uses (`from rng import RNG`) is not among the
sources; modelled from the spec: `rng.permutation(n)` is an arbitrary
rearrangement `permIdx` of `range n`, and `rng.shuffle` an arbitrary
rearrangement function `shuf` (the theorem hypothesises exactly that they
permute). Without stratification the (optionally shuffled) index range is
`np.array_split` into `n_folds` folds.  With stratification the index list
of each distinct label — visited in sorted label order, as
`sorted(labels_indices.items())` does — is `np.array_split` separately and
fold `k` concatenates the `k`-th parts of every label, shuffled if asked. -/
def make_k_folds (y : List Nat) (n_folds : Nat) (shuffle stratify : Bool)
    (permIdx : List Nat) (shuf : List Nat → List Nat) : List (List Nat) :=
  let n := y.length
  if stratify = false then
    let indices := if shuffle then permIdx else List.range n
    array_split indices n_folds
  else
    let labels := List.insertionSort (· ≤ ·) y.dedup
    let splits := labels.map (fun lab =>
      array_split ((List.range n).filter (fun i => y.getD i 0 = lab)) n_folds)
    (List.range n_folds).map (fun k =>
      let fold := (splits.map (fun s => s.getD k [])).flatten
      if shuffle then shuf fold else fold)

end utils

namespace rbm

/-- A batched tensor, indexed by (row, column). Entries outside the intended
shape are irrelevant junk that no operation reads. -/
abbrev Mat := Nat → Nat → ℚ

/-- A vector, indexed by position. -/
abbrev Vec := Nat → ℚ

/-- `∑ i < n, a i * b i`, the contraction underlying `tf.matmul`/`tf.einsum`. -/
def dot (n : Nat) (a b : Vec) : ℚ := ∑ i ∈ Finset.range n, a i * b i

/-- The weights of `BaseRBM` (`rbm.py`): `W : (n_visible, n_hidden)`,
hidden bias `hb`, visible bias `vb`. -/
structure RBMGraph where
  n_visible : Nat
  n_hidden : Nat
  W : Mat
  hb : Vec
  vb : Vec

/-- `BaseRBM._propup`: `tf.matmul(v, W) + hb`, batched over rows of `v`. -/
def propup (g : RBMGraph) (v : Mat) : Mat :=
  fun r j => dot g.n_visible (v r) (fun i => g.W i j) + g.hb j

/-- `BaseRBM._propdown`: `tf.matmul(h, W, transpose_b=True) + vb`. -/
def propdown (g : RBMGraph) (h : Mat) : Mat :=
  fun r i => dot g.n_hidden (h r) (fun j => g.W i j) + g.vb i

/-- `BaseRBM._sample_h_given_v`: means `sigmoid(propup v)` and samples
`to_float(h_rand < h_means)`. `tf.nn.sigmoid` is the abstract parameter
`sig`. -/
def sample_h_given_v (sig : ℚ → ℚ) (g : RBMGraph) (h_rand : Mat) (v : Mat) :
    Mat × Mat :=
  let h_means : Mat := fun r j => sig (propup g v r j)
  let h_samples : Mat := fun r j => if h_rand r j < h_means r j then 1 else 0
  (h_means, h_samples)

/-- `BaseRBM._sample_v_given_h`: means `sigmoid(propdown h)` and samples
`to_float(v_rand < v_means)`. -/
def sample_v_given_h (sig : ℚ → ℚ) (g : RBMGraph) (v_rand : Mat) (h : Mat) :
    Mat × Mat :=
  let v_means : Mat := fun r i => sig (propdown g h r i)
  let v_samples : Mat := fun r i => if v_rand r i < v_means r i then 1 else 0
  (v_means, v_samples)

/-- Tensors live after the Gibbs loop in `_make_train_op`: `v_means`,
`v_samples` and `h_means` are `None` until the first sweep runs. -/
structure GibbsOut where
  v_means : Option Mat
  v_samples : Option Mat
  h_means : Option Mat
  h_states : Mat

/-- The Gibbs chain of `_make_train_op` (`rbm.py` lines 150-160):
`h_states` starts as the binary samples `h0_samples` drawn given the data
batch `X`; each sweep computes `v_means, v_samples` from the current
`h_states`, sets `v_states = v_means`, computes `h_means, h_samples` from
`v_states`, and sets `h_states = h_means`. The same `h_rand`/`v_rand`
placeholders feed every sweep, as in the graph. -/
def gibbs_chain (sig : ℚ → ℚ) (g : RBMGraph) (h_rand v_rand : Mat) (X : Mat) :
    Nat → GibbsOut
  | 0 =>
      { v_means := none, v_samples := none, h_means := none
        h_states := (sample_h_given_v sig g h_rand X).2 }
  | n + 1 =>
      let prev := gibbs_chain sig g h_rand v_rand X n
      let vm_vs := sample_v_given_h sig g v_rand prev.h_states
      let v_states := vm_vs.1
      let hm_hs := sample_h_given_v sig g h_rand v_states
      { v_means := some vm_vs.1, v_samples := some vm_vs.2
        h_means := some hm_hs.1, h_states := hm_hs.1 }

/-- The deterministic mean-field sweep `h ↦ sigmoid(propup(sigmoid(propdown h)))`.
It takes no random input: this is the transition the chain state actually
follows between sweeps. -/
def means_sweep (sig : ℚ → ℚ) (g : RBMGraph) (h : Mat) : Mat :=
  fun r j => sig (propup g (fun r' i => sig (propdown g h r' i)) r j)

/-- The one-hot vector with value `x` at position `i0`. -/
def oneHot (i0 : Nat) (x : ℚ) : Vec := fun i => if i = i0 then x else 0

/-- The per-row free-energy vector of `BaseRBM._free_energy`:
`fe = -einsum('ij,j->i', v, vb); fe -= reduce_sum(softplus(propup(v)), axis=1)`.
`tf.nn.softplus` is the abstract parameter `sp`. -/
def free_energy_rows (sp : ℚ → ℚ) (g : RBMGraph) (v : Mat) : Vec :=
  fun r => -dot g.n_visible (v r) g.vb
    - ∑ j ∈ Finset.range g.n_hidden, sp (propup g v r j)

/-- `BaseRBM._free_energy` on a batch with `R` rows: the row vector above
followed by `fe = reduce_mean(fe, axis=0)`, producing one scalar. -/
def free_energy (sp : ℚ → ℚ) (g : RBMGraph) (R : Nat) (v : Mat) : ℚ :=
  (∑ r ∈ Finset.range R, free_energy_rows sp g v r) / (R : ℚ)

/-- `tf.sparse_tensor_to_dense(m, default_value=-1)` for the sparse tensor `m`
of the `pseudo_loglikelihood` block, which holds ones at `(r, pll_rand r)`
for each row `r < R` of the batch. -/
def pll_mask_dense (R : Nat) (pll_rand : Nat → Nat) : Mat :=
  fun r c => if r < R ∧ c = pll_rand r then 1 else -1

/-- The same sparse tensor `m` as added by `tf.sparse_add` (absent entries
contribute 0). -/
def pll_mask_sparse (R : Nat) (pll_rand : Nat → Nat) : Mat :=
  fun r c => if r < R ∧ c = pll_rand r then 1 else 0

/-- The corrupted batch `x_` of the `pseudo_loglikelihood` block:
`x_ = tf.multiply(x, -sparse_tensor_to_dense(m, default_value=-1))` followed
by `x_ = tf.sparse_add(x_, m)`. -/
def pll_corrupt (R : Nat) (pll_rand : Nat → Nat) (x : Mat) : Mat :=
  fun r c => x r c * -pll_mask_dense R pll_rand r c + pll_mask_sparse R pll_rand r c

/-- The `pseudo_loglik` tensor:
`-n_visible * softplus(-(free_energy(x_) - free_energy(x)))`. -/
def pseudo_loglik (sp : ℚ → ℚ) (g : RBMGraph) (R : Nat) (pll_rand : Nat → Nat)
    (x : Mat) : ℚ :=
  -(g.n_visible : ℚ)
    * sp (-(free_energy sp g R (pll_corrupt R pll_rand x) - free_energy sp g R x))

/-- Single-feature corruption as the claim words it: in each row `i` the one
feature at column `pll_rand i` is replaced by `1 - v`, all others are kept. -/
def corrupt_spec (pll_rand : Nat → Nat) (x : Mat) : Mat :=
  fun r c => if c = pll_rand r then 1 - x r c else x r c

/-- The gradient estimates of `_make_train_op` (`grads_estimates` scope,
`rbm.py` lines 167-177), with `N = tf.constant(self.batch_size)` and `R` the
number of rows of the fed batch:
`dW = (matmul(X, h0_means, transpose_a) - matmul(v_samples, h_means, transpose_a)) / N`,
`dhb = reduce_mean(h0_means - h_means, axis=0) / N`,
`dvb = reduce_mean(X - v_samples, axis=0) / N`
(`tf.reduce_mean(·, axis=0)` sums over the `R` batch rows and divides by `R`). -/
def cd_grads (sig : ℚ → ℚ) (g : RBMGraph) (h_rand v_rand X : Mat)
    (R N n_gibbs_steps : Nat) : Mat × Vec × Vec :=
  let h0_means := (sample_h_given_v sig g h_rand X).1
  let out := gibbs_chain sig g h_rand v_rand X n_gibbs_steps
  let v_samples := out.v_samples.getD (fun _ _ => 0)
  let h_means := out.h_means.getD (fun _ _ => 0)
  let dW : Mat := fun i j =>
    ((∑ r ∈ Finset.range R, X r i * h0_means r j)
      - ∑ r ∈ Finset.range R, v_samples r i * h_means r j) / (N : ℚ)
  let dhb : Vec := fun j =>
    (∑ r ∈ Finset.range R, (h0_means r j - h_means r j)) / (R : ℚ) / (N : ℚ)
  let dvb : Vec := fun i =>
    (∑ r ∈ Finset.range R, (X r i - v_samples r i)) / (R : ℚ) / (N : ℚ)
  (dW, dhb, dvb)

/-- A 1-visible/1-hidden RBM with `W = 1`, `hb = 0`, `vb = 0`, used to
exhibit the bias-gradient scaling of `_make_train_op` on a concrete batch. -/
def bugG : RBMGraph := ⟨1, 1, fun _ _ => 1, fun _ => 0, fun _ => 0⟩

/-- The concrete 2×1 data batch of ones. -/
def bugX : Mat := fun _ _ => 1

/-- Random draws ≥ 1 everywhere, so every `to_float(rand < means)` sample
is 0. -/
def bugRand : Mat := fun _ _ => 2

/-- `np.mean` of a list of scalars. -/
def listMean (l : List ℚ) : ℚ := l.sum / (l.length : ℚ)

/-- `_free_energy(tf.constant(X_b))` for one batch given as a list of row
vectors, as evaluated inside `_run_dfe`. -/
def batch_free_energy (sp : ℚ → ℚ) (g : RBMGraph) (batch : List Vec) : ℚ :=
  free_energy sp g batch.length (fun r => batch.getD r (fun _ => 0))

/-- `BaseRBM._run_dfe`: free energies of the batches of
`zip(xrange(n_batches_for_dfe), batch_iter(X, batch_size))` (and likewise for
`X_val`), then `dfe = np.mean(train_fes) - np.mean(val_fes)`. -/
def run_dfe (sp : ℚ → ℚ) (g : RBMGraph) (batch_size n_batches_for_dfe : Nat)
    (X X_val : List Vec) : ℚ :=
  let train_fes :=
    ((List.range n_batches_for_dfe).zip (utils.batch_iter X batch_size)).map
      (fun p => batch_free_energy sp g p.2)
  let val_fes :=
    ((List.range n_batches_for_dfe).zip (utils.batch_iter X_val batch_size)).map
      (fun p => batch_free_energy sp g p.2)
  listMean train_fes - listMean val_fes

/-- A matrix materialized with `m` rows and `n` columns, as `tf` shapes its
variable/gradient tensors. -/
def mkMat (m n : Nat) (f : Nat → Nat → ℚ) : List (List ℚ) :=
  (List.range m).map (fun i => (List.range n).map (f i))

/-- The `vb_init` handling of `BaseRBM.__init__`: a scalar is replicated
`n_visible` times, an iterable is taken as the list of values. -/
inductive VBInit where
  | scalar (c : ℚ)
  | iter (l : List ℚ)

def vb_init_expand (n_visible : Nat) : VBInit → List ℚ
  | .scalar c => List.replicate n_visible c
  | .iter l => l

/-- The six variables created by `BaseRBM._make_init_op`: the weights
`W, hb, vb` and the gradient accumulators `dW, dhb, dvb`. -/
structure RBMVars where
  W : List (List ℚ)
  hb : List ℚ
  vb : List ℚ
  dW : List (List ℚ)
  dhb : List ℚ
  dvb : List ℚ

/-- `BaseRBM._make_init_op`: `W = random_normal((n_visible, n_hidden))`
(the drawn values abstracted as `w_rand`), `hb = hb_init * ones(n_hidden)`,
`vb = Variable(vb_init)`, and zero gradient accumulators of the matching
shapes. -/
def make_init_op (n_visible n_hidden : Nat) (w_rand : Nat → Nat → ℚ)
    (hb_init : ℚ) (vbi : VBInit) : RBMVars :=
  { W := mkMat n_visible n_hidden w_rand
    hb := List.replicate n_hidden hb_init
    vb := vb_init_expand n_visible vbi
    dW := mkMat n_visible n_hidden (fun _ _ => 0)
    dhb := List.replicate n_hidden 0
    dvb := List.replicate n_visible 0 }

def vecScale (c : ℚ) (v : List ℚ) : List ℚ := v.map (fun x => c * x)

def vecAdd (a b : List ℚ) : List ℚ := List.zipWith (fun x y => x + y) a b

def matScale (c : ℚ) (A : List (List ℚ)) : List (List ℚ) := A.map (vecScale c)

def matAdd (A B : List (List ℚ)) : List (List ℚ) := List.zipWith vecAdd A B

/-- The `momentum_updates` block of `_make_train_op`: each accumulator is
rebound to `momentum * accumulator + gradient`, and each weight variable
gets `assign_add(learning_rate * accumulator)`. -/
def train_update (lr momentum : ℚ) (gW : List (List ℚ)) (ghb gvb : List ℚ)
    (s : RBMVars) : RBMVars :=
  let dW := matAdd (matScale momentum s.dW) gW
  let dhb := vecAdd (vecScale momentum s.dhb) ghb
  let dvb := vecAdd (vecScale momentum s.dvb) gvb
  { W := matAdd s.W (matScale lr dW)
    hb := vecAdd s.hb (vecScale lr dhb)
    vb := vecAdd s.vb (vecScale lr dvb)
    dW := dW, dhb := dhb, dvb := dvb }

/-- The gradient tensors of `cd_grads` carry the static shapes
`(n_visible, n_hidden)`, `(n_hidden,)`, `(n_visible,)` that `tf.matmul` and
`tf.reduce_mean(axis=0)` give them. -/
def cd_grads_tensors (sig : ℚ → ℚ) (g : RBMGraph) (h_rand v_rand X : Mat)
    (R N n_gibbs_steps : Nat) : List (List ℚ) × List ℚ × List ℚ :=
  let grads := cd_grads sig g h_rand v_rand X R N n_gibbs_steps
  (mkMat g.n_visible g.n_hidden grads.1,
   (List.range g.n_hidden).map grads.2.1,
   (List.range g.n_visible).map grads.2.2)

def matShape (A : List (List ℚ)) (m n : Nat) : Prop :=
  A.length = m ∧ ∀ i (h : i < A.length), A[i].length = n

/-- All six variables have their textbook shapes. -/
def varShapes (s : RBMVars) (n_visible n_hidden : Nat) : Prop :=
  matShape s.W n_visible n_hidden ∧ s.hb.length = n_hidden
    ∧ s.vb.length = n_visible ∧ matShape s.dW n_visible n_hidden
    ∧ s.dhb.length = n_hidden ∧ s.dvb.length = n_visible

end rbm

namespace cifar

/-- Which data each of the 26 small RBMs of
`make_small_rbms` (`examples/dbm_cifar.py`) is trained on:
an `8×8` patch of the `4×4` grid (`X[:, 8i:8(i+1), 8j:8(j+1), :]`), an `8×8`
patch of the offset `3×3` grid (`X[:, 4+8i:4+8(i+1), 4+8j:4+8(j+1), :]`), or
the mean-downsampled whole `32×32` image. -/
inductive PatchSpec where
  | grid (i j : Nat)
  | offset (i j : Nat)
  | down
deriving DecidableEq

/-- The order in which `make_small_rbms` produces its RBMs: the `4×4` grid
row-major (`rbm_id = 4*i + j`), then the offset `3×3` grid
(`rbm_id = 16 + 3*i + j`), then the downsampled-image RBM (`rbm_id = 25`). -/
def smallRBMSpecs : List PatchSpec :=
  ((List.range 4).map (fun i => (List.range 4).map (fun j => PatchSpec.grid i j))).flatten
    ++ ((List.range 3).map (fun i => (List.range 3).map (fun j => PatchSpec.offset i j))).flatten
    ++ [PatchSpec.down]

/-- The flattened training batch each `PatchSpec` yields from an image
tensor `X : (N, 32, 32, 3)` (row `t`, flat patch feature
`p = (a*8 + b)*3 + ch`): the grid/offset patches are plain slices plus
`im_flatten`; the `down` batch is
`X.transpose(0,3,1,2).reshape((-1,3,4,8,4,8)).mean(axis=4).mean(axis=2).transpose(0,2,3,1)`
flattened, i.e. pixel `(a, b)` averages the 16 strided pixels
`(8u + a, 8v + b)`. -/
def patchData (X : Nat → Nat → Nat → Nat → ℚ) : PatchSpec → (Nat → Nat → ℚ)
  | .grid i j => fun t p => X t (8 * i + p / 24) (8 * j + p % 24 / 3) (p % 3)
  | .offset i j => fun t p => X t (4 + 8 * i + p / 24) (4 + 8 * j + p % 24 / 3) (p % 3)
  | .down => fun t p =>
      (∑ u ∈ Finset.range 4, ∑ v ∈ Finset.range 4,
        X t (8 * u + p / 24) (8 * v + p % 24 / 3) (p % 3)) / 16

/-- Modelled from the spec: the `GaussianRBM` class of the `hdm` package
(`from hdm.rbm import GaussianRBM`) is not among the sources. All
`make_large_weights` reads off a small RBM is its
`get_tf_params(scope='weights')` dict — the weight matrix `W` of shape
`(8*8*3, 300)`, visible bias `vb` of length `192` and hidden bias `hb` of
length `300`, here total functions on indices. -/
structure SmallRBM where
  W : Nat → Nat → ℚ
  vb : Nat → ℚ
  hb : Nat → ℚ

/-- The all-zero stand-in returned for an out-of-range list access. -/
def default0 : SmallRBM := ⟨fun _ _ => 0, fun _ => 0, fun _ => 0⟩

/-- `make_small_rbms(X_train, X_val, small_rbm_config, args)` as the list of
small RBMs it returns: one per entry of `smallRBMSpecs` in that order, each
produced by the trainer `fit` (`GaussianRBM(...).fit` on the flattened patch
data of train and validation sets, or the equivalently-trained
`GaussianRBM.load_model`). -/
def make_small_rbms (X X_val : Nat → Nat → Nat → Nat → ℚ)
    (fit : PatchSpec → (Nat → Nat → ℚ) → (Nat → Nat → ℚ) → SmallRBM) :
    List SmallRBM :=
  smallRBMSpecs.map (fun s => fit s (patchData X s) (patchData X_val s))

/-- A `(300*26, 32, 32, 3)` tensor as a function of
(hidden unit, image row, image column, channel). -/
abbrev Arr4 := Nat → Nat → Nat → Nat → ℚ

/-- A `(32, 32, 3)` tensor as a function of (row, column, channel). -/
abbrev Arr3 := Nat → Nat → Nat → ℚ

/-- The numpy slice assignment
`A[h0:h1, r0:r1, c0:c1, :] = f` (with `f` indexed from the slice origin). -/
def sliceSet4 (A : Arr4) (h0 h1 r0 r1 c0 c1 : Nat)
    (f : Nat → Nat → Nat → Nat → ℚ) : Arr4 :=
  fun h r c ch =>
    if h0 ≤ h ∧ h < h1 ∧ r0 ≤ r ∧ r < r1 ∧ c0 ≤ c ∧ c < c1 then
      f (h - h0) (r - r0) (c - c0) ch
    else A h r c ch

/-- The numpy slice accumulation `A[r0:r1, c0:c1, :] += f`. -/
def sliceAdd3 (A : Arr3) (r0 r1 c0 c1 : Nat) (f : Nat → Nat → Nat → ℚ) : Arr3 :=
  fun r c ch =>
    if r0 ≤ r ∧ r < r1 ∧ c0 ≤ c ∧ c < c1 then
      A r c ch + f (r - r0) (c - c0) ch
    else A r c ch

/-- The numpy slice assignment `v[h0:h1] = f` on a vector. -/
def sliceSet1 (v : Nat → ℚ) (h0 h1 : Nat) (f : Nat → ℚ) : Nat → ℚ :=
  fun h => if h0 ≤ h ∧ h < h1 then f (h - h0) else v h

/-- `im_unflatten` of a length-192 vector to `(8, 8, 3)`. -/
def unflat8 (v : Nat → ℚ) : Nat → Nat → Nat → ℚ :=
  fun a b ch => v ((a * 8 + b) * 3 + ch)

/-- `im_unflatten(W_small.T)`: the `(300, 8, 8, 3)` filter tensor of a small
RBM's `(192, 300)` weight matrix. -/
def unflatW (W : Nat → Nat → ℚ) : Nat → Nat → Nat → Nat → ℚ :=
  fun t a b ch => W ((a * 8 + b) * 3 + ch) t

/-- First loop of `make_large_weights` on `W` after `m` of its 16 iterations
(`rbm_id = 4*i + j` runs `0..15` in order): each writes
`W[300*id : 300*(id+1), 8i:8(i+1), 8j:8(j+1), :] = im_unflatten(W_small.T)`. -/
def loop1W (rbms : List SmallRBM) : Nat → Arr4 → Arr4
  | 0, A => A
  | m + 1, A =>
      sliceSet4 (loop1W rbms m A) (300 * m) (300 * (m + 1))
        (8 * (m / 4)) (8 * (m / 4) + 8) (8 * (m % 4)) (8 * (m % 4) + 8)
        (unflatW (rbms.getD m default0).W)

/-- Second loop on `W` after `m` of its 9 iterations
(`rbm_id = 16 + 3*i + j`): patches offset by 4 pixels. -/
def loop2W (rbms : List SmallRBM) : Nat → Arr4 → Arr4
  | 0, A => A
  | m + 1, A =>
      sliceSet4 (loop2W rbms m A) (300 * (16 + m)) (300 * (16 + m + 1))
        (4 + 8 * (m / 3)) (4 + 8 * (m / 3) + 8)
        (4 + 8 * (m % 3)) (4 + 8 * (m % 3) + 8)
        (unflatW (rbms.getD (16 + m) default0).W)

/-- Third loop on `W` after `m` of its 64 iterations over the `8×8` pixel
grid (`i = m / 8`, `j = m % 8`): each writes
`W[-300:, 4i:4(i+1), 4j:4(j+1), :] = U/16`, where `U` broadcasts filter
pixel `(i, j)` of the last RBM over the `4×4` block. -/
def loop3W (rbms : List SmallRBM) : Nat → Arr4 → Arr4
  | 0, A => A
  | m + 1, A =>
      sliceSet4 (loop3W rbms m A) (300 * 25) (300 * 26)
        (4 * (m / 8)) (4 * (m / 8) + 4) (4 * (m % 8)) (4 * (m % 8) + 4)
        (fun t _ _ ch => unflatW (rbms.getD 25 default0).W t (m / 8) (m % 8) ch / 16)

/-- The assembled `(300*26, 32, 32, 3)` weight tensor before flattening. -/
def largeWArr (rbms : List SmallRBM) : Arr4 :=
  loop3W rbms 64 (loop2W rbms 9 (loop1W rbms 16 (fun _ _ _ _ => 0)))

/-- First loop on `hb`: `hb[300*id : 300*(id+1)] = weights['hb']`. -/
def loop1hb (rbms : List SmallRBM) : Nat → (Nat → ℚ) → (Nat → ℚ)
  | 0, v => v
  | m + 1, v =>
      sliceSet1 (loop1hb rbms m v) (300 * m) (300 * (m + 1))
        (rbms.getD m default0).hb

/-- Second loop on `hb`, `rbm_id = 16 + m`. -/
def loop2hb (rbms : List SmallRBM) : Nat → (Nat → ℚ) → (Nat → ℚ)
  | 0, v => v
  | m + 1, v =>
      sliceSet1 (loop2hb rbms m v) (300 * (16 + m)) (300 * (16 + m + 1))
        (rbms.getD (16 + m) default0).hb

/-- Third loop on `hb`: each of the 64 iterations re-assigns
`hb[-300:] = weights['hb']` of the last RBM. -/
def loop3hb (rbms : List SmallRBM) : Nat → (Nat → ℚ) → (Nat → ℚ)
  | 0, v => v
  | m + 1, v =>
      sliceSet1 (loop3hb rbms m v) (300 * 25) (300 * 26)
        (rbms.getD 25 default0).hb

/-- The assembled length-7800 hidden bias before listing. -/
def largeHbArr (rbms : List SmallRBM) : Nat → ℚ :=
  loop3hb rbms 64 (loop2hb rbms 9 (loop1hb rbms 16 (fun _ => 0)))

/-- First loop on `vb`: `vb[8i:8(i+1), 8j:8(j+1), :] += im_unflatten(vb_small)`. -/
def loop1vb (rbms : List SmallRBM) : Nat → Arr3 → Arr3
  | 0, A => A
  | m + 1, A =>
      sliceAdd3 (loop1vb rbms m A)
        (8 * (m / 4)) (8 * (m / 4) + 8) (8 * (m % 4)) (8 * (m % 4) + 8)
        (unflat8 (rbms.getD m default0).vb)

/-- Second loop on `vb`, patches offset by 4 pixels, `rbm_id = 16 + m`. -/
def loop2vb (rbms : List SmallRBM) : Nat → Arr3 → Arr3
  | 0, A => A
  | m + 1, A =>
      sliceAdd3 (loop2vb rbms m A)
        (4 + 8 * (m / 3)) (4 + 8 * (m / 3) + 8)
        (4 + 8 * (m % 3)) (4 + 8 * (m % 3) + 8)
        (unflat8 (rbms.getD (16 + m) default0).vb)

/-- Third loop on `vb`:
`vb[4i:4(i+1), 4j:4(j+1), :] += vb_small[i, j, :].reshape((1,1,3)) / 16`. -/
def loop3vb (rbms : List SmallRBM) : Nat → Arr3 → Arr3
  | 0, A => A
  | m + 1, A =>
      sliceAdd3 (loop3vb rbms m A)
        (4 * (m / 8)) (4 * (m / 8) + 4) (4 * (m % 8)) (4 * (m % 8) + 4)
        (fun _ _ ch => unflat8 (rbms.getD 25 default0).vb (m / 8) (m % 8) ch / 16)

/-- The assembled `(32, 32, 3)` visible bias after the final rescaling
`vb /= 2.` and `vb[4:-4, 4:-4, :] /= 1.5`. -/
def largeVbArr (rbms : List SmallRBM) : Arr3 :=
  let A := loop3vb rbms 64 (loop2vb rbms 9 (loop1vb rbms 16 (fun _ _ _ => 0)))
  fun r c ch =>
    if 4 ≤ r ∧ r < 28 ∧ 4 ≤ c ∧ c < 28 then A r c ch / 2 / (3 / 2)
    else A r c ch / 2

/-- `make_large_weights(small_rbms)`: the loops above followed by
`W = im_flatten(W); W = W.T` (so `W : (32*32*3, 300*26)` with the flat
visible index `p = (r*32 + c)*3 + ch`), `vb = im_flatten(vb)` of length
`32*32*3`, and `hb` of length `300*26`. -/
def make_large_weights (rbms : List SmallRBM) :
    List (List ℚ) × List ℚ × List ℚ :=
  ((List.range (32 * 32 * 3)).map (fun p =>
      (List.range (300 * 26)).map (fun h =>
        largeWArr rbms h (p / 96) (p / 3 % 32) (p % 3))),
   (List.range (32 * 32 * 3)).map (fun p =>
      largeVbArr rbms (p / 96) (p / 3 % 32) (p % 3)),
   (List.range (300 * 26)).map (fun h => largeHbArr rbms h))

/-- The `8×8` image patch RBM `k < 25` is trained on, as a predicate on
image coordinates: rows `8i ≤ r < 8i+8`, columns `8j ≤ c < 8j+8` for the
grid (`k = 4i+j < 16`), shifted by 4 pixels for the offset grid
(`k = 16 + 3i + j`). -/
def inPatch (k r c : Nat) : Prop :=
  if k < 16 then
    8 * (k / 4) ≤ r ∧ r < 8 * (k / 4) + 8 ∧ 8 * (k % 4) ≤ c ∧ c < 8 * (k % 4) + 8
  else
    4 + 8 * ((k - 16) / 3) ≤ r ∧ r < 4 + 8 * ((k - 16) / 3) + 8
      ∧ 4 + 8 * ((k - 16) % 3) ≤ c ∧ c < 4 + 8 * ((k - 16) % 3) + 8

/-- The argparse destination names `main` defines in
`examples/dbm_cifar.py` (each `--foo-bar` option becomes `args.foo_bar`). -/
def parser_arg_names : List String :=
  ["gpu", "n_train", "n_val", "data_path",
   "small_lr", "small_epochs", "small_batch_size", "small_l2",
   "small_dirpath_prefix", "epochs", "batch_size", "l2"]

/-- The `args.<attr>` reads `main` performs (including inside
`make_augmentation` and `make_small_rbms`, which it passes `args` to), in
program order up to and including the large-`GaussianRBM` construction. -/
def main_accessed_args : List String :=
  ["gpu", "epochs", "batch_size", "n_train", "n_val", "data_path",
   "small_lr", "small_epochs", "small_batch_size", "small_l2",
   "small_dirpath_prefix", "epochs", "batch_size", "l2",
   "small_sparsity_target", "small_sparsity_cost"]

/-- The pipeline stages the body of `main` contains, in source order.
It ends with the construction of the large Gaussian RBM: no call to
`grbm.fit`, and no DBM is constructed, stacked or trained (`DBM` and
`MultinomialRBM` are imported but never used). -/
def main_stages : List String :=
  ["parse_args", "load_cifar10", "make_augmentation", "center_normalize",
   "make_small_rbms", "make_large_weights", "construct_large_gaussian_rbm"]

end cifar

/-! ## Theorems -/

namespace utils

theorem batch_iter_length (X : List α) (b : Nat) :
    (batch_iter X b).length = (X.length + b - 1) / b := by
  simp [batch_iter]

/-- Joining the first `m` chunks recovers the first `m*b` elements. -/
theorem batch_iter_join_aux (X : List α) (b m : Nat) :
    ((List.range m).map (fun k => (X.drop (k * b)).take b)).flatten = X.take (m * b) := by
  induction m with
  | zero => simp
  | succ m ih =>
      rw [List.range_succ, List.map_append, List.flatten_append, ih]
      simp [Nat.succ_mul, List.take_add]

theorem ceil_div_mul_ge (N b : Nat) (hb : 0 < b) : N ≤ (N + b - 1) / b * b := by
  have hmod := Nat.div_add_mod' (N + b - 1) b
  have hlt : (N + b - 1) % b < b := Nat.mod_lt _ hb
  omega

theorem ceil_div_pred_mul_lt (N b : Nat) (hb : 0 < b) (hN : 0 < N) :
    ((N + b - 1) / b - 1) * b < N := by
  have hmod := Nat.div_add_mod' (N + b - 1) b
  have hlt : (N + b - 1) % b < b := Nat.mod_lt _ hb
  rcases Nat.eq_zero_or_pos ((N + b - 1) / b) with h0 | hpos
  · simp [h0]; omega
  · have hsub : ((N + b - 1) / b - 1) * b = (N + b - 1) / b * b - b := by
      rw [Nat.sub_mul, Nat.one_mul]
    omega

/-- Concatenating all yielded batches reproduces `X`. -/
theorem batch_iter_join (X : List α) (b : Nat) (hb : 0 < b) :
    (batch_iter X b).flatten = X := by
  rw [batch_iter, batch_iter_join_aux]
  exact List.take_of_length_le (ceil_div_mul_ge X.length b hb)

theorem batch_iter_getElem (X : List α) (b i : Nat) (h : i < (batch_iter X b).length) :
    (batch_iter X b)[i] = (X.drop (i * b)).take b := by
  simp [batch_iter]

/-- C9: for every array `X` with `N` rows and every `batch_size ≥ 1`,
`batch_iter X b` yields exactly `⌈N/b⌉ = (N + b - 1)/b` batches, every batch
except possibly the last has exactly `b` rows, the last batch has
`N - b*(⌈N/b⌉ - 1)` rows, and concatenating the batches in yield order
reproduces `X`. -/
theorem batch_iter_spec (X : List α) (b : Nat) (hb : 1 ≤ b) :
    (batch_iter X b).length = (X.length + b - 1) / b ∧
    (∀ i, ∀ h : i < (batch_iter X b).length, i + 1 < (batch_iter X b).length →
      ((batch_iter X b)[i]).length = b) ∧
    (∀ h : 0 < (batch_iter X b).length,
      ((batch_iter X b)[(batch_iter X b).length - 1]).length
        = X.length - b * ((batch_iter X b).length - 1)) ∧
    (batch_iter X b).flatten = X := by
  have hlen := batch_iter_length X b
  refine ⟨hlen, ?_, ?_, batch_iter_join X b hb⟩
  · intro i h hi
    rw [batch_iter_getElem X b i h]
    rw [hlen] at hi
    have hN : 0 < X.length := by
      rcases Nat.eq_zero_or_pos X.length with hx | hx
      · rw [hx, Nat.div_eq_of_lt (by omega)] at hi
        omega
      · exact hx
    have hm1 : i + 1 ≤ (X.length + b - 1) / b - 1 := by omega
    have hlt := ceil_div_pred_mul_lt X.length b hb hN
    have h2 : (i + 1) * b ≤ ((X.length + b - 1) / b - 1) * b :=
      Nat.mul_le_mul_right b hm1
    have h3 : (i + 1) * b < X.length := lt_of_le_of_lt h2 hlt
    rw [Nat.succ_mul] at h3
    simp [List.length_take, List.length_drop]
    omega
  · intro h
    rw [hlen] at h
    have hge := ceil_div_mul_ge X.length b hb
    have hsub : ((X.length + b - 1) / b - 1) * b = (X.length + b - 1) / b * b - b := by
      rw [Nat.sub_mul, Nat.one_mul]
    have hble : b ≤ (X.length + b - 1) / b * b := by
      calc b = 1 * b := (Nat.one_mul b).symm
      _ ≤ (X.length + b - 1) / b * b := Nat.mul_le_mul_right b h
    have hidx : (batch_iter X b).length - 1 < (batch_iter X b).length := by
      rw [hlen]; omega
    rw [batch_iter_getElem X b _ hidx, hlen]
    rw [List.length_take, List.length_drop]
    have key : X.length - ((X.length + b - 1) / b - 1) * b ≤ b := by omega
    rw [Nat.min_eq_right key, Nat.mul_comm b ((X.length + b - 1) / b - 1)]

/-- Witness for `batch_iter_spec` at `X = [10, 20, 30, 40, 50]`, `b = 2`. -/
theorem batch_iter_spec_witness :
    1 ≤ 2 ∧
    ((batch_iter [10, 20, 30, 40, 50] 2).length = (5 + 2 - 1) / 2 ∧
    (∀ i, ∀ h : i < (batch_iter [10, 20, 30, 40, 50] 2).length,
      i + 1 < (batch_iter [10, 20, 30, 40, 50] 2).length →
      ((batch_iter [10, 20, 30, 40, 50] 2)[i]).length = 2) ∧
    (∀ h : 0 < (batch_iter [10, 20, 30, 40, 50] 2).length,
      ((batch_iter [10, 20, 30, 40, 50] 2)[(batch_iter [10, 20, 30, 40, 50] 2).length - 1]).length
        = 5 - 2 * ((batch_iter [10, 20, 30, 40, 50] 2).length - 1)) ∧
    (batch_iter [10, 20, 30, 40, 50] 2).flatten = [10, 20, 30, 40, 50]) :=
  ⟨by decide, batch_iter_spec [10, 20, 30, 40, 50] 2 (by decide)⟩

theorem splitBySizes_length (l : List α) (sizes : List Nat) :
    (splitBySizes l sizes).length = sizes.length := by
  induction sizes generalizing l with
  | nil => rfl
  | cons s rest ih => simp [splitBySizes, ih]

theorem splitBySizes_flatten (l : List α) (sizes : List Nat) :
    (splitBySizes l sizes).flatten = l.take sizes.sum := by
  induction sizes generalizing l with
  | nil => simp [splitBySizes]
  | cons s rest ih => simp [splitBySizes, ih, List.take_add]

theorem sum_map_ite_range (f r q : Nat) (hr : r ≤ f) :
    ((List.range f).map (fun k => if k < r then q + 1 else q)).sum = f * q + r := by
  induction f with
  | zero =>
      have : r = 0 := by omega
      simp [this]
  | succ f ih =>
      rcases Nat.lt_or_ge r (f + 1) with hlt | hge
      · have hr' : r ≤ f := by omega
        have hnot : ¬ f < r := by omega
        rw [List.range_succ, List.map_append, List.sum_append, ih hr']
        simp [hnot, Nat.succ_mul]
        omega
      · have hreq : r = f + 1 := by omega
        subst hreq
        have hmap : (List.range (f + 1)).map (fun k => if k < f + 1 then q + 1 else q)
            = (List.range (f + 1)).map (fun _ => q + 1) := by
          refine List.map_congr_left ?_
          intro k hk
          rw [List.mem_range] at hk
          simp [hk]
        rw [hmap, List.map_const', List.sum_replicate, smul_eq_mul, List.length_range]
        ring

theorem splitSizes_sum (n f : Nat) (hf : 0 < f) : (splitSizes n f).sum = n := by
  have hr : n % f ≤ f := Nat.le_of_lt (Nat.mod_lt _ hf)
  rw [splitSizes, sum_map_ite_range f (n % f) (n / f) hr]
  have := Nat.div_add_mod n f
  omega

theorem array_split_flatten (l : List α) (f : Nat) (hf : 0 < f) :
    (array_split l f).flatten = l := by
  rw [array_split, splitBySizes_flatten, splitSizes_sum _ _ hf, List.take_length]

theorem array_split_length (l : List α) (f : Nat) :
    (array_split l f).length = f := by
  rw [array_split, splitBySizes_length, splitSizes, List.length_map, List.length_range]

theorem list_sum_map_add (l : List β) (u v : β → Nat) :
    (l.map (fun k => u k + v k)).sum = (l.map u).sum + (l.map v).sum := by
  induction l with
  | nil => rfl
  | cons b t ih =>
      simp [ih]
      omega

theorem list_sum_map_zero (l : List β) : (l.map (fun _ => (0 : Nat))).sum = 0 := by
  simp [List.map_const']

theorem list_sum_swap (ks : List γ) (labels : List β) (g : γ → β → Nat) :
    (ks.map (fun k => (labels.map (fun lab => g k lab)).sum)).sum
      = (labels.map (fun lab => (ks.map (fun k => g k lab)).sum)).sum := by
  induction labels with
  | nil => simp [list_sum_map_zero]
  | cons lab t ih =>
      simp only [List.map_cons, List.sum_cons]
      rw [← ih, ← list_sum_map_add]

theorem range_map_getD (L : List α) (d : α) :
    (List.range L.length).map (fun k => L.getD k d) = L := by
  refine List.ext_getElem (by simp) ?_
  intro i h1 h2
  simp [List.getD_eq_getElem?_getD, List.getElem?_eq_getElem h2]

theorem count_range (a n : Nat) : (List.range n).count a = if a < n then 1 else 0 := by
  induction n with
  | zero => simp
  | succ n ih =>
      rw [List.range_succ, List.count_append, ih, List.count_singleton']
      split_ifs <;> omega

theorem count_filter_prop (l : List Nat) (p : Nat → Prop) [DecidablePred p] (a : Nat) :
    (l.filter (fun i => p i)).count a = if p a then l.count a else 0 := by
  by_cases hp : p a
  · rw [if_pos hp]
    exact List.count_filter (by simpa using hp)
  · rw [if_neg hp, List.count_eq_zero]
    intro hmem
    rw [List.mem_filter] at hmem
    exact hp (by simpa using hmem.2)

theorem sum_map_ite_not_mem (rest : List Nat) (c t : Nat) (hc : c ∉ rest) :
    (rest.map (fun lab => if c = lab then t else 0)).sum = 0 := by
  induction rest with
  | nil => rfl
  | cons b r ih =>
      rw [List.mem_cons, not_or] at hc
      simp [hc.1, ih hc.2]

theorem sum_map_ite_mem (labels : List Nat) (hnd : labels.Nodup) (c t : Nat) :
    (labels.map (fun lab => if c = lab then t else 0)).sum
      = if c ∈ labels then t else 0 := by
  induction labels with
  | nil => simp
  | cons lab rest ih =>
      rw [List.nodup_cons] at hnd
      simp only [List.map_cons, List.sum_cons]
      by_cases hc : c = lab
      · subst hc
        rw [sum_map_ite_not_mem rest c t hnd.1]
        simp
      · rw [ih hnd.2]
        simp [hc, Ne.symm hc]

theorem stratified_flatten_count (y : List Nat) (f : Nat) (hf : 0 < f) (a : Nat) :
    (((List.range f).map (fun k =>
        (((List.insertionSort (· ≤ ·) y.dedup).map (fun lab =>
            array_split ((List.range y.length).filter (fun i => y.getD i 0 = lab)) f)).map
          (fun s => s.getD k [])).flatten)).flatten).count a
      = (List.range y.length).count a := by
  set labels := List.insertionSort (· ≤ ·) y.dedup with hlabels
  set filt : Nat → List Nat :=
    (fun lab => (List.range y.length).filter (fun i => y.getD i 0 = lab)) with hfilt
  rw [List.count_flatten, List.map_map]
  have hstep : ∀ k : Nat,
      (List.count a ∘ fun k =>
        ((labels.map (fun lab => array_split (filt lab) f)).map (fun s => s.getD k [])).flatten) k
      = (labels.map (fun lab => List.count a ((array_split (filt lab) f).getD k []))).sum := by
    intro k
    simp only [Function.comp]
    rw [List.count_flatten, List.map_map, List.map_map]
    rfl
  rw [List.map_congr_left (fun k _ => hstep k), list_sum_swap]
  have hinner : ∀ lab,
      ((List.range f).map (fun k => List.count a ((array_split (filt lab) f).getD k []))).sum
        = List.count a (filt lab) := by
    intro lab
    have hlen : (array_split (filt lab) f).length = f := array_split_length _ _
    have : (List.range f).map (fun k => List.count a ((array_split (filt lab) f).getD k []))
        = ((List.range (array_split (filt lab) f).length).map
            (fun k => (array_split (filt lab) f).getD k [])).map (List.count a) := by
      rw [List.map_map, hlen]
      rfl
    rw [this, range_map_getD, ← List.count_flatten, array_split_flatten _ _ hf]
  rw [List.map_congr_left (fun lab _ => hinner lab)]
  have hcount : ∀ lab, List.count a (filt lab)
      = if y.getD a 0 = lab then (List.range y.length).count a else 0 := by
    intro lab
    exact count_filter_prop (List.range y.length) (fun i => y.getD i 0 = lab) a
  rw [List.map_congr_left (fun lab _ => hcount lab)]
  have hnd : labels.Nodup :=
    (List.perm_insertionSort _ y.dedup).nodup_iff.mpr (List.nodup_dedup y)
  rw [sum_map_ite_mem labels hnd (y.getD a 0) _]
  by_cases ha : a < y.length
  · have hmem : y.getD a 0 ∈ labels := by
      rw [hlabels, (List.perm_insertionSort _ y.dedup).mem_iff, List.mem_dedup]
      rw [List.getD_eq_getElem?_getD, List.getElem?_eq_getElem ha]
      exact List.getElem_mem ha
    rw [if_pos hmem]
  · rw [count_range]
    rw [if_neg ha]
    simp

theorem flatten_map_perm (ks : List γ) (g h : γ → List Nat)
    (hg : ∀ k, (g k).Perm (h k)) :
    ((ks.map g).flatten).Perm ((ks.map h).flatten) := by
  induction ks with
  | nil => rfl
  | cons k t ih =>
      simp only [List.map_cons, List.flatten_cons]
      exact (hg k).append ih

theorem flatten_perm_partition {L : List (List Nat)} {n : Nat}
    (h : L.flatten.Perm (List.range n)) :
    (∀ i, i < n ↔ ∃ l ∈ L, i ∈ l)
    ∧ ∀ j k, ∀ hj : j < L.length, ∀ hk : k < L.length, j ≠ k →
        ∀ i, i ∈ L[j] → i ∉ L[k] := by
  constructor
  · intro i
    rw [← List.mem_range (n := n), ← h.mem_iff]
    exact List.mem_flatten
  · have hnd : L.flatten.Nodup := h.nodup_iff.mpr (List.nodup_range n)
    rw [List.nodup_flatten] at hnd
    have hpair := List.pairwise_iff_getElem.mp hnd.2
    intro j k hj hk hjk i hij hik
    rcases Nat.lt_or_ge j k with hlt | hge
    · exact hpair j k hj hk hlt hij hik
    · have hlt : k < j := by omega
      exact hpair k j hk hj hlt hik hij

/-- C10: for every integer label list `y`, every `n_folds` with
`1 < n_folds ≤ |y|`, and every combination of the `shuffle` and `stratify`
flags (with the RNG draws being arbitrary permutations), the folds yielded
by `make_k_folds` are pairwise disjoint index lists whose union is exactly
`{0, ..., |y| - 1}`: their concatenation is a permutation of `range |y|`,
every index below `|y|` lies in some fold and in no second one. -/
theorem make_k_folds_partition (y : List Nat) (n_folds : Nat)
    (shuffle stratify : Bool) (permIdx : List Nat) (shuf : List Nat → List Nat)
    (hf : 1 < n_folds) (_hfn : n_folds ≤ y.length)
    (hperm : permIdx.Perm (List.range y.length))
    (hshuf : ∀ l, (shuf l).Perm l) :
    (make_k_folds y n_folds shuffle stratify permIdx shuf).flatten.Perm
        (List.range y.length)
    ∧ (∀ i, i < y.length ↔
        ∃ fold ∈ make_k_folds y n_folds shuffle stratify permIdx shuf, i ∈ fold)
    ∧ ∀ j k, ∀ hj : j < (make_k_folds y n_folds shuffle stratify permIdx shuf).length,
        ∀ hk : k < (make_k_folds y n_folds shuffle stratify permIdx shuf).length,
        j ≠ k → ∀ i,
          i ∈ (make_k_folds y n_folds shuffle stratify permIdx shuf)[j]
          → i ∉ (make_k_folds y n_folds shuffle stratify permIdx shuf)[k] := by
  have hf0 : 0 < n_folds := by omega
  have hmain : (make_k_folds y n_folds shuffle stratify permIdx shuf).flatten.Perm
      (List.range y.length) := by
    cases stratify with
    | false =>
        rw [make_k_folds]
        simp only [if_true]
        rw [array_split_flatten _ _ hf0]
        cases shuffle with
        | false => simp
        | true => simpa using hperm
    | true =>
        rw [make_k_folds]
        simp only [if_false]
        refine List.Perm.trans
          (flatten_map_perm (List.range n_folds) _ _ ?_)
          (List.perm_iff_count.mpr (fun a => stratified_flatten_count y n_folds hf0 a))
        intro k
        cases shuffle with
        | false => simp
        | true => simpa using hshuf _
  have hpart := flatten_perm_partition hmain
  exact ⟨hmain, hpart.1, hpart.2⟩

/-- Witness for `make_k_folds_partition` on `y = [1, 1, 2, 2]`, 2 folds,
with the identity draws. -/
theorem make_k_folds_partition_witness :
    (1 < 2 ∧ 2 ≤ 4 ∧ (List.range 4).Perm (List.range ([1, 1, 2, 2] : List Nat).length)
      ∧ ∀ l : List Nat, (id l).Perm l)
    ∧ ((make_k_folds [1, 1, 2, 2] 2 true true (List.range 4) id).flatten.Perm
        (List.range ([1, 1, 2, 2] : List Nat).length)
    ∧ (∀ i, i < ([1, 1, 2, 2] : List Nat).length ↔
        ∃ fold ∈ make_k_folds [1, 1, 2, 2] 2 true true (List.range 4) id, i ∈ fold)
    ∧ ∀ j k, ∀ hj : j < (make_k_folds [1, 1, 2, 2] 2 true true (List.range 4) id).length,
        ∀ hk : k < (make_k_folds [1, 1, 2, 2] 2 true true (List.range 4) id).length,
        j ≠ k → ∀ i,
          i ∈ (make_k_folds [1, 1, 2, 2] 2 true true (List.range 4) id)[j]
          → i ∉ (make_k_folds [1, 1, 2, 2] 2 true true (List.range 4) id)[k]) :=
  ⟨⟨by decide, by decide, List.Perm.refl _, fun l => List.Perm.refl l⟩,
    make_k_folds_partition [1, 1, 2, 2] 2 true true (List.range 4) id
      (by decide) (by decide) (List.Perm.refl _) (fun l => List.Perm.refl l)⟩

end utils

namespace rbm

/-- C3: the training chain starts from the binary samples `h0_samples` drawn
conditionally on the data batch; each of the `n_gibbs_steps` sweeps first
computes visible means from the current hidden state and then hidden means
from those visible means; and the state carried between sweeps is the means
(the chain state after `n` sweeps is the rand-free `means_sweep` iterated
`n` times on `h0_samples`). -/
theorem gibbs_chain_spec (sig : ℚ → ℚ) (g : RBMGraph) (h_rand v_rand X : Mat) :
    ((gibbs_chain sig g h_rand v_rand X 0).h_states
        = (sample_h_given_v sig g h_rand X).2
      ∧ ∀ r j, (sample_h_given_v sig g h_rand X).2 r j = 0
          ∨ (sample_h_given_v sig g h_rand X).2 r j = 1)
    ∧ (∀ n,
        (gibbs_chain sig g h_rand v_rand X (n + 1)).v_means
          = some (fun r i =>
              sig (propdown g (gibbs_chain sig g h_rand v_rand X n).h_states r i))
        ∧ (gibbs_chain sig g h_rand v_rand X (n + 1)).h_means
          = some ((gibbs_chain sig g h_rand v_rand X (n + 1)).h_states)
        ∧ (gibbs_chain sig g h_rand v_rand X (n + 1)).h_states
          = means_sweep sig g ((gibbs_chain sig g h_rand v_rand X n).h_states))
    ∧ (∀ n, (gibbs_chain sig g h_rand v_rand X n).h_states
        = (means_sweep sig g)^[n] ((sample_h_given_v sig g h_rand X).2)) := by
  refine ⟨⟨rfl, ?_⟩, ?_, ?_⟩
  · intro r j
    by_cases hc : h_rand r j < (sample_h_given_v sig g h_rand X).1 r j
    · right; simp [sample_h_given_v] at hc ⊢; simp [hc]
    · left; simp [sample_h_given_v] at hc ⊢; simp [hc]
  · intro n
    refine ⟨rfl, rfl, rfl⟩
  · intro n
    induction n with
    | zero => rfl
    | succ n ih =>
        rw [Function.iterate_succ_apply', ← ih]
        rfl

/-- C7: the model is undirected with one shared weight matrix. The hidden
pre-activation `_propup` is the affine map `v ↦ v W + hb` and the visible
pre-activation `_propdown` is `h ↦ h Wᵀ + vb`: at zero input each returns
exactly its bias, and perturbing visible unit `i` by `x` moves hidden
pre-activation `j` by `x * W i j` — the very same coefficient by which
perturbing hidden unit `j` by `x` moves visible pre-activation `i`. Neither
map takes same-layer activity as input, so there is no intra-layer term. -/
theorem propup_propdown_shared_weights (g : RBMGraph) (i j : Nat)
    (hi : i < g.n_visible) (hj : j < g.n_hidden) (x : ℚ) :
    (∀ r, propup g (fun _ => oneHot 0 0) r j = g.hb j)
    ∧ (∀ r, propdown g (fun _ => oneHot 0 0) r i = g.vb i)
    ∧ (∀ r, propup g (fun _ => oneHot i x) r j = x * g.W i j + g.hb j)
    ∧ (∀ r, propdown g (fun _ => oneHot j x) r i = x * g.W i j + g.vb i)
    ∧ (∀ v r, propup g v r j
        = (∑ i' ∈ Finset.range g.n_visible, v r i' * g.W i' j) + g.hb j)
    ∧ (∀ h r, propdown g h r i
        = (∑ j' ∈ Finset.range g.n_hidden, h r j' * g.W i j') + g.vb i) := by
  refine ⟨?_, ?_, ?_, ?_, ?_, ?_⟩
  · intro r
    simp [propup, dot, oneHot]
  · intro r
    simp [propdown, dot, oneHot]
  · intro r
    have : dot g.n_visible (oneHot i x) (fun i' => g.W i' j) = x * g.W i j := by
      unfold dot oneHot
      rw [Finset.sum_eq_single i]
      · simp
      · intro b _ hb; simp [hb]
      · intro habs; exact absurd (Finset.mem_range.mpr hi) habs
    simp [propup, this]
  · intro r
    have : dot g.n_hidden (oneHot j x) (fun j' => g.W i j') = x * g.W i j := by
      unfold dot oneHot
      rw [Finset.sum_eq_single j]
      · simp
      · intro b _ hb; simp [hb]
      · intro habs; exact absurd (Finset.mem_range.mpr hj) habs
    simp [propdown, this]
  · intro v r
    rfl
  · intro h r
    rfl

/-- Witness for `propup_propdown_shared_weights` at a concrete 1×1 RBM. -/
theorem propup_propdown_shared_weights_witness :
    (0 : Nat) < 1 ∧ (0 : Nat) < 1 ∧
    ((∀ r, propup ⟨1, 1, fun _ _ => 2, fun _ => 3, fun _ => 5⟩ (fun _ => oneHot 0 0) r 0 = 3)
    ∧ (∀ r, propdown ⟨1, 1, fun _ _ => 2, fun _ => 3, fun _ => 5⟩ (fun _ => oneHot 0 0) r 0 = 5)
    ∧ (∀ r, propup ⟨1, 1, fun _ _ => 2, fun _ => 3, fun _ => 5⟩ (fun _ => oneHot 0 7) r 0 = 7 * 2 + 3)
    ∧ (∀ r, propdown ⟨1, 1, fun _ _ => 2, fun _ => 3, fun _ => 5⟩ (fun _ => oneHot 0 7) r 0 = 7 * 2 + 5)
    ∧ (∀ v r, propup ⟨1, 1, fun _ _ => 2, fun _ => 3, fun _ => 5⟩ v r 0
        = (∑ i' ∈ Finset.range 1, v r i' * 2) + 3)
    ∧ (∀ h r, propdown ⟨1, 1, fun _ _ => 2, fun _ => 3, fun _ => 5⟩ h r 0
        = (∑ j' ∈ Finset.range 1, h r j' * 2) + 5)) :=
  ⟨Nat.one_pos, Nat.one_pos,
    propup_propdown_shared_weights ⟨1, 1, fun _ _ => 2, fun _ => 3, fun _ => 5⟩
      0 0 Nat.one_pos Nat.one_pos 7⟩

theorem pll_corrupt_eq_corrupt_spec (R : Nat) (pll_rand : Nat → Nat) (x : Mat)
    (r c : Nat) (hr : r < R) :
    pll_corrupt R pll_rand x r c = corrupt_spec pll_rand x r c := by
  unfold pll_corrupt corrupt_spec pll_mask_dense pll_mask_sparse
  by_cases hc : c = pll_rand r
  · simp [hr, hc]; ring
  · simp [hr, hc]

/-- C5: the corrupted batch `x_` equals `x` except that in each batch row
`r < R` the single feature at column `pll_rand r` holds `1 - x r c` instead
of `x r c`; and the returned PLL is
`-n_visible * softplus(-(F(x_) - F(x)))` with `F` the free energy — where
`x_` may equivalently be taken as the claim-side `corrupt_spec`. -/
theorem pseudo_loglik_spec (sp : ℚ → ℚ) (g : RBMGraph) (R : Nat)
    (pll_rand : Nat → Nat) (x : Mat) (_hR : 0 < R) :
    (∀ r c, r < R →
      (c = pll_rand r → pll_corrupt R pll_rand x r c = 1 - x r c)
      ∧ (c ≠ pll_rand r → pll_corrupt R pll_rand x r c = x r c))
    ∧ pseudo_loglik sp g R pll_rand x
        = -(g.n_visible : ℚ)
          * sp (-(free_energy sp g R (corrupt_spec pll_rand x)
                  - free_energy sp g R x)) := by
  constructor
  · intro r c hr
    constructor
    · intro hc
      rw [pll_corrupt_eq_corrupt_spec R pll_rand x r c hr]
      simp [corrupt_spec, hc]
    · intro hc
      rw [pll_corrupt_eq_corrupt_spec R pll_rand x r c hr]
      simp [corrupt_spec, hc]
  · unfold pseudo_loglik
    have hfe : free_energy sp g R (pll_corrupt R pll_rand x)
        = free_energy sp g R (corrupt_spec pll_rand x) := by
      unfold free_energy
      congr 1
      refine Finset.sum_congr rfl ?_
      intro r hr
      have hrR : r < R := Finset.mem_range.mp hr
      unfold free_energy_rows
      have hrow : ∀ c, pll_corrupt R pll_rand x r c = corrupt_spec pll_rand x r c :=
        fun c => pll_corrupt_eq_corrupt_spec R pll_rand x r c hrR
      congr 1
      · congr 1
        unfold dot
        exact Finset.sum_congr rfl (fun i _ => by rw [hrow i])
      · refine Finset.sum_congr rfl ?_
        intro j _
        unfold propup dot
        congr 2
        exact Finset.sum_congr rfl (fun i _ => by rw [hrow i])
    rw [hfe]

/-- C2 (code bug): on the batch `bugX` (2 rows, `batch_size N = 2`,
`n_gibbs_steps = 1`, sigmoid instantiated with `id`), the code's hidden-bias
gradient `dhb` is `1/2`, while the textbook estimate
`(∑_batch (h0_means - h_means)) / N` claimed by the spec is `1`: the code
divides by the batch size twice (`reduce_mean` over the `R = 2` rows already
divides by the row count, and the result is divided by `N` again), whereas
its weight gradient `dW` in the same scope is divided only once. -/
theorem cd_bias_gradient_double_scaling :
    (cd_grads id bugG bugRand bugRand bugX 2 2 1).2.1 0 = 1 / 2
    ∧ (∑ r ∈ Finset.range 2,
        ((sample_h_given_v id bugG bugRand bugX).1 r 0
          - ((gibbs_chain id bugG bugRand bugRand bugX 1).h_means.getD
              (fun _ _ => 0)) r 0)) / ((2 : Nat) : ℚ) = 1
    ∧ ((1 : ℚ) / 2) ≠ 1
    ∧ (cd_grads id bugG bugRand bugRand bugX 2 2 1).1 0 0
        = ((∑ r ∈ Finset.range 2, bugX r 0 * (sample_h_given_v id bugG bugRand bugX).1 r 0)
          - ∑ r ∈ Finset.range 2,
              ((gibbs_chain id bugG bugRand bugRand bugX 1).v_samples.getD
                (fun _ _ => 0)) r 0
              * ((gibbs_chain id bugG bugRand bugRand bugX 1).h_means.getD
                (fun _ _ => 0)) r 0) / ((2 : Nat) : ℚ) := by
  refine ⟨?_, ?_, by norm_num, rfl⟩
  · norm_num [cd_grads, sample_h_given_v, sample_v_given_h, gibbs_chain,
      propup, propdown, dot, bugG, bugX, bugRand,
      Finset.sum_range_succ, Finset.sum_range_one]
  · norm_num [sample_h_given_v, sample_v_given_h, gibbs_chain,
      propup, propdown, dot, bugG, bugX, bugRand,
      Finset.sum_range_succ, Finset.sum_range_one]

theorem zip_map_snd_eq_take (r : List β) (l : List α) :
    (r.zip l).map Prod.snd = l.take r.length := by
  induction r generalizing l with
  | nil => simp
  | cons a r ih =>
      cases l with
      | nil => simp
      | cons x t => simp [List.zip_cons_cons, ih]

/-- C6: `_free_energy` of a batch with `R` rows is the single scalar mean
over the rows of `-vᵣ·vb - ∑ⱼ softplus((vᵣ W + hb)ⱼ)`; and `_run_dfe` is the
difference between this quantity averaged over the first
`min n_batches_for_dfe ⌈|X|/batch_size⌉` training batches and the same
average over at most `n_batches_for_dfe` validation batches. -/
theorem free_energy_dfe_spec (sp : ℚ → ℚ) (g : RBMGraph)
    (R batch_size n_batches_for_dfe : Nat) (v : Mat) (X X_val : List Vec) :
    free_energy sp g R v
      = (∑ r ∈ Finset.range R,
          (-(∑ i ∈ Finset.range g.n_visible, v r i * g.vb i)
            - ∑ j ∈ Finset.range g.n_hidden,
                sp ((∑ i ∈ Finset.range g.n_visible, v r i * g.W i j) + g.hb j)))
        / (R : ℚ)
    ∧ run_dfe sp g batch_size n_batches_for_dfe X X_val
      = listMean (((utils.batch_iter X batch_size).take n_batches_for_dfe).map
          (batch_free_energy sp g))
        - listMean (((utils.batch_iter X_val batch_size).take n_batches_for_dfe).map
          (batch_free_energy sp g))
    ∧ (((List.range n_batches_for_dfe).zip (utils.batch_iter X batch_size)).map
          (fun p => batch_free_energy sp g p.2)).length
      = min n_batches_for_dfe (utils.batch_iter X batch_size).length := by
  refine ⟨rfl, ?_, ?_⟩
  · unfold run_dfe
    have htr : ∀ (Y : List Vec),
        ((List.range n_batches_for_dfe).zip (utils.batch_iter Y batch_size)).map
            (fun p => batch_free_energy sp g p.2)
          = ((utils.batch_iter Y batch_size).take n_batches_for_dfe).map
              (batch_free_energy sp g) := by
      intro Y
      have : (fun p : Nat × List Vec => batch_free_energy sp g p.2)
          = (batch_free_energy sp g) ∘ Prod.snd := rfl
      rw [this, ← List.map_map, zip_map_snd_eq_take, List.length_range]
    rw [htr X, htr X_val]
  · rw [List.length_map, List.length_zip, List.length_range]

theorem mkMat_shape (m n : Nat) (f : Nat → Nat → ℚ) : matShape (mkMat m n f) m n := by
  constructor
  · simp [mkMat]
  · intro i h
    simp [mkMat]

theorem matAdd_shape {A B : List (List ℚ)} {m n : Nat}
    (hA : matShape A m n) (hB : matShape B m n) : matShape (matAdd A B) m n := by
  obtain ⟨hAl, hAr⟩ := hA
  obtain ⟨hBl, hBr⟩ := hB
  constructor
  · simp [matAdd, List.length_zipWith, hAl, hBl]
  · intro i h
    simp only [matAdd, List.getElem_zipWith]
    have hiA : i < A.length := by
      simp [matAdd, List.length_zipWith, hAl, hBl] at h; omega
    have hiB : i < B.length := by
      simp [matAdd, List.length_zipWith, hAl, hBl] at h; omega
    simp [vecAdd, List.length_zipWith, vecScale, hAr i hiA, hBr i hiB]

theorem matScale_shape {A : List (List ℚ)} {m n : Nat} (c : ℚ)
    (hA : matShape A m n) : matShape (matScale c A) m n := by
  obtain ⟨hAl, hAr⟩ := hA
  constructor
  · simp [matScale, hAl]
  · intro i h
    have hiA : i < A.length := by simpa [matScale] using h
    simp [matScale, vecScale, hAr i hiA]

theorem vecAdd_length {a b : List ℚ} {n : Nat} (ha : a.length = n)
    (hb : b.length = n) : (vecAdd a b).length = n := by
  simp [vecAdd, List.length_zipWith, ha, hb]

theorem vecScale_length {a : List ℚ} {n : Nat} (c : ℚ) (ha : a.length = n) :
    (vecScale c a).length = n := by
  simp [vecScale, ha]

/-- C8: after `_make_init_op` (with `vb_init` either a scalar or a list of
`n_visible` values) `W` and `dW` have shape `(n_visible, n_hidden)`, `hb` and
`dhb` length `n_hidden`, `vb` and `dvb` length `n_visible`; and every
application of the training update — momentum accumulation followed by
`assign_add` on `W`, `hb`, `vb`, with the gradient tensors produced by the
CD graph — preserves all six shapes. -/
theorem rbm_shapes_invariant (n_visible n_hidden : Nat) (w_rand : Nat → Nat → ℚ)
    (hb_init : ℚ) (vbi : VBInit)
    (hvb : ∀ l, vbi = VBInit.iter l → l.length = n_visible) :
    varShapes (make_init_op n_visible n_hidden w_rand hb_init vbi) n_visible n_hidden
    ∧ ∀ (lr momentum : ℚ) (sig : ℚ → ℚ) (g : RBMGraph) (h_rand v_rand X : Mat)
        (R N n_gibbs_steps : Nat) (s : RBMVars),
        g.n_visible = n_visible → g.n_hidden = n_hidden →
        varShapes s n_visible n_hidden →
        varShapes
          (train_update lr momentum
            (cd_grads_tensors sig g h_rand v_rand X R N n_gibbs_steps).1
            (cd_grads_tensors sig g h_rand v_rand X R N n_gibbs_steps).2.1
            (cd_grads_tensors sig g h_rand v_rand X R N n_gibbs_steps).2.2 s)
          n_visible n_hidden := by
  constructor
  · refine ⟨mkMat_shape _ _ _, by simp [make_init_op], ?_, mkMat_shape _ _ _,
      by simp [make_init_op], by simp [make_init_op]⟩
    cases vbi with
    | scalar c => simp [make_init_op, vb_init_expand]
    | iter l => simpa [make_init_op, vb_init_expand] using hvb l rfl
  · intro lr momentum sig g h_rand v_rand X R N n_gibbs_steps s hgv hgh hs
    obtain ⟨hW, hhb, hvb', hdW, hdhb, hdvb⟩ := hs
    have hgW : matShape (cd_grads_tensors sig g h_rand v_rand X R N n_gibbs_steps).1
        n_visible n_hidden := by
      rw [cd_grads_tensors]
      simpa [hgv, hgh] using
        mkMat_shape g.n_visible g.n_hidden (cd_grads sig g h_rand v_rand X R N n_gibbs_steps).1
    have hghb : (cd_grads_tensors sig g h_rand v_rand X R N n_gibbs_steps).2.1.length
        = n_hidden := by simp [cd_grads_tensors, hgh]
    have hgvb : (cd_grads_tensors sig g h_rand v_rand X R N n_gibbs_steps).2.2.length
        = n_visible := by simp [cd_grads_tensors, hgv]
    have hdW' := matAdd_shape (matScale_shape momentum hdW) hgW
    have hdhb' := vecAdd_length (vecScale_length momentum hdhb) hghb
    have hdvb' := vecAdd_length (vecScale_length momentum hdvb) hgvb
    exact ⟨matAdd_shape hW (matScale_shape lr hdW'),
      vecAdd_length hhb (vecScale_length lr hdhb'),
      vecAdd_length hvb' (vecScale_length lr hdvb'),
      hdW', hdhb', hdvb'⟩

/-- Witness for `rbm_shapes_invariant` at `n_visible = 2`, `n_hidden = 1`,
scalar `vb_init`. -/
theorem rbm_shapes_invariant_witness :
    varShapes (make_init_op 2 1 (fun _ _ => 7) 3 (VBInit.scalar 5)) 2 1
    ∧ ∀ (lr momentum : ℚ) (sig : ℚ → ℚ) (g : RBMGraph) (h_rand v_rand X : Mat)
        (R N n_gibbs_steps : Nat) (s : RBMVars),
        g.n_visible = 2 → g.n_hidden = 1 →
        varShapes s 2 1 →
        varShapes
          (train_update lr momentum
            (cd_grads_tensors sig g h_rand v_rand X R N n_gibbs_steps).1
            (cd_grads_tensors sig g h_rand v_rand X R N n_gibbs_steps).2.1
            (cd_grads_tensors sig g h_rand v_rand X R N n_gibbs_steps).2.2 s)
          2 1 :=
  rbm_shapes_invariant 2 1 (fun _ _ => 7) 3 (VBInit.scalar 5)
    (fun l h => by cases h)

/-- Witness for `pseudo_loglik_spec` on a concrete 2×2 batch. -/
theorem pseudo_loglik_spec_witness :
    (0 : Nat) < 2 ∧
    ((∀ r c, r < 2 →
      (c = (fun r' => r') r →
        pll_corrupt 2 (fun r' => r') (fun _ _ => (1:ℚ)/3) r c = 1 - (1:ℚ)/3)
      ∧ (c ≠ (fun r' => r') r →
        pll_corrupt 2 (fun r' => r') (fun _ _ => (1:ℚ)/3) r c = (1:ℚ)/3))
    ∧ pseudo_loglik id ⟨2, 2, fun _ _ => 1, fun _ => 0, fun _ => 0⟩ 2
        (fun r' => r') (fun _ _ => (1:ℚ)/3)
        = -((2:Nat) : ℚ)
          * id (-(free_energy id ⟨2, 2, fun _ _ => 1, fun _ => 0, fun _ => 0⟩ 2
                  (corrupt_spec (fun r' => r') (fun _ _ => (1:ℚ)/3))
                  - free_energy id ⟨2, 2, fun _ _ => 1, fun _ => 0, fun _ => 0⟩ 2
                  (fun _ _ => (1:ℚ)/3)))) :=
  ⟨by decide,
    pseudo_loglik_spec id ⟨2, 2, fun _ _ => 1, fun _ => 0, fun _ => 0⟩ 2
      (fun r' => r') (fun _ _ => (1:ℚ)/3) (by decide)⟩

end rbm

namespace cifar

theorem getD_range_map {α : Type} (n p : Nat) (f : Nat → α) (d : α) :
    ((List.range n).map f).getD p d = if p < n then f p else d := by
  rw [List.getD_eq_getElem?_getD]
  by_cases hp : p < n
  · rw [List.getElem?_eq_getElem (by simpa using hp)]
    simp [hp]
  · rw [List.getElem?_eq_none (by simpa using hp)]
    simp [hp]

theorem loop3W_untouched (rbms : List SmallRBM) (m : Nat) (A : Arr4)
    (h r c ch : Nat) (hh : h < 300 * 25) :
    loop3W rbms m A h r c ch = A h r c ch := by
  induction m with
  | zero => rfl
  | succ m ih =>
      show sliceSet4 (loop3W rbms m A) _ _ _ _ _ _ _ h r c ch = A h r c ch
      rw [sliceSet4, if_neg (by omega), ih]

theorem loop2W_apply (rbms : List SmallRBM) (m : Nat) (A : Arr4)
    (h r c ch : Nat) :
    loop2W rbms m A h r c ch =
      if 16 ≤ h / 300 ∧ h / 300 < 16 + m
          ∧ 4 + 8 * ((h / 300 - 16) / 3) ≤ r ∧ r < 4 + 8 * ((h / 300 - 16) / 3) + 8
          ∧ 4 + 8 * ((h / 300 - 16) % 3) ≤ c ∧ c < 4 + 8 * ((h / 300 - 16) % 3) + 8 then
        unflatW (rbms.getD (h / 300) default0).W (h % 300)
          (r - (4 + 8 * ((h / 300 - 16) / 3))) (c - (4 + 8 * ((h / 300 - 16) % 3))) ch
      else A h r c ch := by
  induction m with
  | zero => rw [loop2W, if_neg (by omega)]
  | succ m ih =>
      show sliceSet4 (loop2W rbms m A) _ _ _ _ _ _ _ h r c ch = _
      rw [sliceSet4]
      by_cases hC : 300 * (16 + m) ≤ h ∧ h < 300 * (16 + m + 1)
          ∧ 4 + 8 * (m / 3) ≤ r ∧ r < 4 + 8 * (m / 3) + 8
          ∧ 4 + 8 * (m % 3) ≤ c ∧ c < 4 + 8 * (m % 3) + 8
      · rw [if_pos hC, if_pos (by omega)]
        have h1 : h - 300 * (16 + m) = h % 300 := by omega
        have h2 : h / 300 = 16 + m := by omega
        have h3 : (h / 300 - 16) / 3 = m / 3 := by omega
        have h4 : (h / 300 - 16) % 3 = m % 3 := by omega
        rw [h1, h3, h4, h2]
      · rw [if_neg hC, ih]
        by_cases hD : 16 ≤ h / 300 ∧ h / 300 < 16 + m
            ∧ 4 + 8 * ((h / 300 - 16) / 3) ≤ r ∧ r < 4 + 8 * ((h / 300 - 16) / 3) + 8
            ∧ 4 + 8 * ((h / 300 - 16) % 3) ≤ c ∧ c < 4 + 8 * ((h / 300 - 16) % 3) + 8
        · rw [if_pos hD, if_pos (by omega)]
        · rw [if_neg hD, if_neg (by omega)]

theorem loop1W_apply (rbms : List SmallRBM) (m : Nat) (A : Arr4)
    (h r c ch : Nat) :
    loop1W rbms m A h r c ch =
      if h / 300 < m
          ∧ 8 * (h / 300 / 4) ≤ r ∧ r < 8 * (h / 300 / 4) + 8
          ∧ 8 * (h / 300 % 4) ≤ c ∧ c < 8 * (h / 300 % 4) + 8 then
        unflatW (rbms.getD (h / 300) default0).W (h % 300)
          (r - 8 * (h / 300 / 4)) (c - 8 * (h / 300 % 4)) ch
      else A h r c ch := by
  induction m with
  | zero => rw [loop1W, if_neg (by omega)]
  | succ m ih =>
      show sliceSet4 (loop1W rbms m A) _ _ _ _ _ _ _ h r c ch = _
      rw [sliceSet4]
      by_cases hC : 300 * m ≤ h ∧ h < 300 * (m + 1)
          ∧ 8 * (m / 4) ≤ r ∧ r < 8 * (m / 4) + 8
          ∧ 8 * (m % 4) ≤ c ∧ c < 8 * (m % 4) + 8
      · rw [if_pos hC, if_pos (by omega)]
        have h1 : h - 300 * m = h % 300 := by omega
        have h2 : h / 300 = m := by omega
        have h3 : h / 300 / 4 = m / 4 := by omega
        have h4 : h / 300 % 4 = m % 4 := by omega
        rw [h1, h3, h4, h2]
      · rw [if_neg hC, ih]
        by_cases hD : h / 300 < m
            ∧ 8 * (h / 300 / 4) ≤ r ∧ r < 8 * (h / 300 / 4) + 8
            ∧ 8 * (h / 300 % 4) ≤ c ∧ c < 8 * (h / 300 % 4) + 8
        · rw [if_pos hD, if_pos (by omega)]
        · rw [if_neg hD, if_neg (by omega)]

theorem loop3hb_untouched (rbms : List SmallRBM) (m : Nat) (v : Nat → ℚ)
    (h : Nat) (hh : h < 300 * 25) :
    loop3hb rbms m v h = v h := by
  induction m with
  | zero => rfl
  | succ m ih =>
      show sliceSet1 (loop3hb rbms m v) _ _ _ h = v h
      rw [sliceSet1, if_neg (by omega), ih]

theorem loop2hb_apply (rbms : List SmallRBM) (m : Nat) (v : Nat → ℚ) (h : Nat) :
    loop2hb rbms m v h =
      if 16 ≤ h / 300 ∧ h / 300 < 16 + m then
        (rbms.getD (h / 300) default0).hb (h % 300)
      else v h := by
  induction m with
  | zero => rw [loop2hb, if_neg (by omega)]
  | succ m ih =>
      show sliceSet1 (loop2hb rbms m v) _ _ _ h = _
      rw [sliceSet1]
      by_cases hC : 300 * (16 + m) ≤ h ∧ h < 300 * (16 + m + 1)
      · rw [if_pos hC, if_pos (by omega)]
        have h1 : h - 300 * (16 + m) = h % 300 := by omega
        have h2 : h / 300 = 16 + m := by omega
        rw [h1, h2]
      · rw [if_neg hC, ih]
        by_cases hD : 16 ≤ h / 300 ∧ h / 300 < 16 + m
        · rw [if_pos hD, if_pos (by omega)]
        · rw [if_neg hD, if_neg (by omega)]

theorem loop1hb_apply (rbms : List SmallRBM) (m : Nat) (v : Nat → ℚ) (h : Nat) :
    loop1hb rbms m v h =
      if h / 300 < m then (rbms.getD (h / 300) default0).hb (h % 300)
      else v h := by
  induction m with
  | zero => rw [loop1hb, if_neg (by omega)]
  | succ m ih =>
      show sliceSet1 (loop1hb rbms m v) _ _ _ h = _
      rw [sliceSet1]
      by_cases hC : 300 * m ≤ h ∧ h < 300 * (m + 1)
      · rw [if_pos hC, if_pos (by omega)]
        have h1 : h - 300 * m = h % 300 := by omega
        have h2 : h / 300 = m := by omega
        rw [h1, h2]
      · rw [if_neg hC, ih]
        by_cases hD : h / 300 < m
        · rw [if_pos hD, if_pos (by omega)]
        · rw [if_neg hD, if_neg (by omega)]

set_option maxRecDepth 40000 in
/-- C1: `make_small_rbms` returns exactly 26 RBMs — the first 16 trained on
the `4×4` grid of `8×8` patches (`rbm_id = 4i+j`), the next 9 on the offset
`3×3` grid (`rbm_id = 16+3i+j`), and the last on the downsampled whole
image — and `make_large_weights` applied to such a list of 26 small RBMs
returns a weight matrix `W` of shape `(32*32*3, 300*26)`, a visible bias of
length `32*32*3` and a hidden bias of length `300*26`, such that for each of
the first 25 RBMs `k` the rows of `W` for hidden units `300k ≤ h < 300(k+1)`
are zero at every visible position outside the `8×8` patch of RBM `k`, and
`hb[300k : 300(k+1)]` equals the hidden bias of RBM `k`. -/
theorem make_large_weights_spec
    (X X_val : Nat → Nat → Nat → Nat → ℚ)
    (fit : PatchSpec → (Nat → Nat → ℚ) → (Nat → Nat → ℚ) → SmallRBM)
    (rbms : List SmallRBM) (_hlen : rbms.length = 26) :
    (make_small_rbms X X_val fit).length = 26
    ∧ (∀ i, i < 4 → ∀ j, j < 4 →
        smallRBMSpecs.getD (4 * i + j) PatchSpec.down = PatchSpec.grid i j)
    ∧ (∀ i, i < 3 → ∀ j, j < 3 →
        smallRBMSpecs.getD (16 + 3 * i + j) PatchSpec.down = PatchSpec.offset i j)
    ∧ smallRBMSpecs.getD 25 (PatchSpec.grid 0 0) = PatchSpec.down
    ∧ (make_large_weights rbms).1.length = 32 * 32 * 3
    ∧ (∀ row ∈ (make_large_weights rbms).1, row.length = 300 * 26)
    ∧ (make_large_weights rbms).2.1.length = 32 * 32 * 3
    ∧ (make_large_weights rbms).2.2.length = 300 * 26
    ∧ (∀ k t p, k < 25 → t < 300 → p < 32 * 32 * 3 →
        ¬ inPatch k (p / 96) (p / 3 % 32) →
        ((make_large_weights rbms).1.getD p []).getD (300 * k + t) 0 = 0)
    ∧ (∀ k t, k < 25 → t < 300 →
        (make_large_weights rbms).2.2.getD (300 * k + t) 0
          = (rbms.getD k default0).hb t) := by
  refine ⟨?_, by decide, by decide, by decide, by simp [make_large_weights], ?_, by
    simp [make_large_weights], by simp [make_large_weights], ?_, ?_⟩
  · rw [make_small_rbms, List.length_map]
    decide
  · intro row hrow
    rw [make_large_weights] at hrow
    simp only [List.mem_map] at hrow
    obtain ⟨p, _, rfl⟩ := hrow
    simp
  · intro k t p hk ht hp hout
    have hh : 300 * k + t < 300 * 26 := by omega
    rw [make_large_weights]
    show (((List.range (32 * 32 * 3)).map (fun p =>
        (List.range (300 * 26)).map (fun h =>
          largeWArr rbms h (p / 96) (p / 3 % 32) (p % 3)))).getD p []).getD
          (300 * k + t) 0 = 0
    rw [getD_range_map, if_pos hp, getD_range_map, if_pos hh]
    rw [largeWArr, loop3W_untouched _ _ _ _ _ _ _ (by omega),
      loop2W_apply, loop1W_apply]
    have hdiv : (300 * k + t) / 300 = k := by omega
    rw [hdiv]
    by_cases hk16 : k < 16
    · rw [inPatch, if_pos hk16] at hout
      rw [if_neg (by omega), if_neg (by omega)]
    · rw [inPatch, if_neg hk16] at hout
      rw [if_neg (by omega), if_neg (by omega)]
  · intro k t hk ht
    have hh : 300 * k + t < 300 * 26 := by omega
    rw [make_large_weights]
    show ((List.range (300 * 26)).map (fun h => largeHbArr rbms h)).getD
        (300 * k + t) 0 = (rbms.getD k default0).hb t
    rw [getD_range_map, if_pos hh]
    rw [largeHbArr, loop3hb_untouched _ _ _ _ (by omega),
      loop2hb_apply, loop1hb_apply]
    have hdiv : (300 * k + t) / 300 = k := by omega
    have hmod : (300 * k + t) % 300 = t := by omega
    rw [hdiv, hmod]
    by_cases hk16 : k < 16
    · rw [if_neg (by omega), if_pos hk16]
    · rw [if_pos (by omega)]

/-- Witness for `make_large_weights_spec` with 26 zero RBMs and zero data. -/
theorem make_large_weights_spec_witness :
    (List.replicate 26 default0).length = 26
    ∧ ((make_small_rbms (fun _ _ _ _ => 0) (fun _ _ _ _ => 0)
        (fun _ _ _ => default0)).length = 26
    ∧ (∀ i, i < 4 → ∀ j, j < 4 →
        smallRBMSpecs.getD (4 * i + j) PatchSpec.down = PatchSpec.grid i j)
    ∧ (∀ i, i < 3 → ∀ j, j < 3 →
        smallRBMSpecs.getD (16 + 3 * i + j) PatchSpec.down = PatchSpec.offset i j)
    ∧ smallRBMSpecs.getD 25 (PatchSpec.grid 0 0) = PatchSpec.down
    ∧ (make_large_weights (List.replicate 26 default0)).1.length = 32 * 32 * 3
    ∧ (∀ row ∈ (make_large_weights (List.replicate 26 default0)).1,
        row.length = 300 * 26)
    ∧ (make_large_weights (List.replicate 26 default0)).2.1.length = 32 * 32 * 3
    ∧ (make_large_weights (List.replicate 26 default0)).2.2.length = 300 * 26
    ∧ (∀ k t p, k < 25 → t < 300 → p < 32 * 32 * 3 →
        ¬ inPatch k (p / 96) (p / 3 % 32) →
        ((make_large_weights (List.replicate 26 default0)).1.getD p []).getD
          (300 * k + t) 0 = 0)
    ∧ (∀ k t, k < 25 → t < 300 →
        (make_large_weights (List.replicate 26 default0)).2.2.getD (300 * k + t) 0
          = ((List.replicate 26 default0).getD k default0).hb t)) :=
  ⟨by simp,
    make_large_weights_spec (fun _ _ _ _ => 0) (fun _ _ _ _ => 0)
      (fun _ _ _ => default0) (List.replicate 26 default0) (by simp)⟩

/-- C4 (code bug): the `main` of `examples/dbm_cifar.py` reads
`args.small_sparsity_target` and `args.small_sparsity_cost` when
constructing the large Gaussian RBM, but its argument parser defines no such
destinations, so the construction raises `AttributeError`; and the body of
`main` contains no `grbm.fit` call and never constructs, stacks, or trains a
DBM — contrary to the claimed multi-stage pipeline. -/
theorem dbm_cifar_main_bug :
    "small_sparsity_target" ∈ main_accessed_args
    ∧ "small_sparsity_cost" ∈ main_accessed_args
    ∧ "small_sparsity_target" ∉ parser_arg_names
    ∧ "small_sparsity_cost" ∉ parser_arg_names
    ∧ "construct_large_gaussian_rbm" ∈ main_stages
    ∧ "fit_large_gaussian_rbm" ∉ main_stages
    ∧ "construct_dbm" ∉ main_stages
    ∧ "fit_dbm" ∉ main_stages := by
  decide

end cifar

